import Mathlib

/-!
Shallow embedding of the `grove` transform-execution kernel
(`src/engine/engine-server/src/main.rs`).

The kernel persists JSON states content-addressed by SHA-256, registers
transforms, and executes graphs of transforms in topological order,
appending a trace per firing and returning the hash of a persisted
execution summary.

Modelling conventions:
* JSON documents are the inductive type `Json` (numbers restricted to
  integers; floats are irrelevant to every claim considered here).
* The filesystem is the explicit record `Fs`; state files store the JSON
  value they contain (the serde `to_vec` / `from_slice` byte round-trip of
  the library is absorbed into the file model).  Low-level file operations
  performed by the kernel are additionally logged as a `List FsOp` so that
  write counts, renames and removals are observable.
* Ambient effects (SHA-256 hashing, `Uuid::new_v4`, `Utc::now`, child
  process execution, elapsed time) are supplied by an `Env` record; UUID
  and clock draws consume a natural-number counter threaded through the
  functions, mirroring fresh draws in the source.
* `anyhow` errors become the inductive `Err`; each constructor corresponds
  to one `bail!`/`context` site of the source.  There is no constructor
  for a cycle error: the source has no such error path.
-/

/-- JSON documents (`serde_json::Value`, numbers restricted to integers). -/
inductive Json where
  | null
  | bool (b : Bool)
  | num (n : Int)
  | str (s : String)
  | arr (elems : List Json)
  | obj (fields : List (String × Json))
deriving Repr

mutual

/-- Structural boolean equality of JSON documents (canonical equality). -/
def Json.beq : Json → Json → Bool
  | .null, .null => true
  | .bool a, .bool b => a == b
  | .num a, .num b => a == b
  | .str a, .str b => a == b
  | .arr a, .arr b => Json.beqList a b
  | .obj a, .obj b => Json.beqFields a b
  | _, _ => false

/-- Elementwise `Json.beq` on arrays. -/
def Json.beqList : List Json → List Json → Bool
  | [], [] => true
  | x :: xs, y :: ys => Json.beq x y && Json.beqList xs ys
  | _, _ => false

/-- Elementwise `Json.beq` on object fields. -/
def Json.beqFields : List (String × Json) → List (String × Json) → Bool
  | [], [] => true
  | (k, x) :: xs, (l, y) :: ys => k == l && Json.beq x y && Json.beqFields xs ys
  | _, _ => false

end

instance : BEq Json := ⟨Json.beq⟩

/-- `TransformSpec` of the source: id, exec command and opaque metadata. -/
structure TransformSpec where
  id : String
  exec_command : String
  meta : Json
deriving Repr

/-- `TracePacket` of the source.  Timestamps are the opaque strings the
model clock produces. -/
structure TracePacket where
  trace_id : String
  execution_id : String
  transform_id : String
  timestamp : String
  inputs_hash : String
  outputs_hash : String
  duration_ms : Nat
  resource_usage : Json
  error : Option String
deriving Repr

/-- Result of running a transform child process
(`std::process::Command::output`). -/
inductive ChildRes where
  /-- The child ran and exited with `code`, produced `stderr`, and wrote
  `out` to its output path (`none` when it did not create the file). -/
  | exited (code : Int) (stderr : String) (out : Option Json)
  /-- `Command::output()` itself failed (program missing, spawn error). -/
  | spawnFail
deriving Repr

/-- Ambient effects of the kernel, supplied as a model parameter.

`hashOf` models `hex(sha256(serde_json::to_vec v))`; `uuid` and `time`
model `Uuid::new_v4()` and `Utc::now()` drawn from a counter supply;
`dur` models the measured wall-clock duration; `bytesLen` models
`to_vec(v).len()`; `child` models spawning `exec_command` on the
materialized input document. -/
structure Env where
  hashOf : Json → String
  uuid : Nat → String
  time : Nat → String
  dur : Nat → Nat
  bytesLen : Json → Nat
  child : String → Json → ChildRes

/-- First-match association-list lookup (`HashMap::get`). -/
def lookupA {α : Type} : List (String × α) → String → Option α
  | [], _ => none
  | (k, v) :: rest, key => if k == key then some v else lookupA rest key

/-- `HashMap::insert`: overwrite the value at the key if present,
otherwise add the binding. -/
def insertA {α : Type} (l : List (String × α)) (key : String) (v : α) :
    List (String × α) :=
  if (lookupA l key).isSome then
    l.map (fun p => if p.1 == key then (key, v) else p)
  else
    l ++ [(key, v)]

/-- The kernel's filesystem:
`states/` files (name `<hash>.json` mapped to the stored document),
the transform registry, the appended trace log (chronological), and the
set of files currently present under `tmp/`. -/
structure Fs where
  states : List (String × Json)
  registry : List (String × TransformSpec)
  traces : List TracePacket
  tmp : List String
deriving Repr

/-- Low-level file operations performed by the kernel, logged so that
write counts, renames and removals can be stated. -/
inductive FsOp where
  | writeFile (path : String) (contents : Json)
  | renameFile (src dst : String)
  | removeFile (path : String)
  | appendTrace (t : TracePacket)
deriving Repr

/-- Whether an `FsOp` is a rename. -/
def FsOp.isRename : FsOp → Bool
  | .renameFile _ _ => true
  | _ => false

/-- Whether an `FsOp` is a file write. -/
def FsOp.isWrite : FsOp → Bool
  | .writeFile _ _ => true
  | _ => false

/-- Errors of the kernel; one constructor per `bail!`/`context` site in
the source. -/
inductive Err where
  | stateNotFound (hash : String)
  | edgeFromUnknown (name : String)
  | edgeToUnknown (name : String)
  | missingPredecessor (name : String)
  | nodeSpecMissing (name : String)
  | transformNotFound (id : String)
  | emptyExecCommand (id : String)
  | spawnFailed
  | outputMissing (path : String)
deriving Repr, DecidableEq

/-- Result of `persist_state`: the returned hash, the filesystem after
the call, and the logged file operations. -/
structure PersistRes where
  hash : String
  fs : Fs
  ops : List FsOp

/-- `Kernel::persist_state`: content-address the document by its hash,
write `states/<hash>.json` only if that file does not already exist. -/
def persistState (env : Env) (fs : Fs) (v : Json) : PersistRes :=
  let hash := env.hashOf v
  let filename := hash ++ ".json"
  if (lookupA fs.states filename).isSome then
    ⟨hash, fs, []⟩
  else
    ⟨hash, { fs with states := fs.states ++ [(filename, v)] },
      [.writeFile ("states/" ++ filename) v]⟩

/-- `Kernel::load_state`: read `states/<hash>.json`, failing when the
file is absent. -/
def loadState (fs : Fs) (hash : String) : Except Err Json :=
  match lookupA fs.states (hash ++ ".json") with
  | some v => .ok v
  | none => .error (.stateNotFound hash)

/-- `Kernel::load_transform`: read the registry entry for `id`. -/
def loadTransform (fs : Fs) (id : String) : Except Err TransformSpec :=
  match lookupA fs.registry id with
  | some t => .ok t
  | none => .error (.transformNotFound id)

/-- Worker for `splitArgv`: scan the characters, flushing the
accumulated word at each whitespace run. -/
def splitWsAux : List Char → List Char → List String
  | [], acc => if acc.isEmpty then [] else [String.mk acc.reverse]
  | c :: cs, acc =>
    if c.isWhitespace then
      if acc.isEmpty then splitWsAux cs []
      else String.mk acc.reverse :: splitWsAux cs []
    else splitWsAux cs (c :: acc)

/-- Split `exec_command` on ASCII whitespace into argv
(`str::split_whitespace`: maximal whitespace-free words, no empties). -/
def splitArgv (s : String) : List String :=
  splitWsAux s.data []

/-- Graph node of a `GraphSpec`. -/
structure GraphNode where
  name : String
  transform_id : String
deriving Repr

/-- Graph edge of a `GraphSpec` (the source fields are `from`/`to`;
`from` is a Lean keyword, hence `fromName`/`toName`). -/
structure GraphEdge where
  fromName : String
  toName : String
deriving Repr

/-- `GraphSpec` of the source. -/
structure GraphSpec where
  nodes : List GraphNode
  edges : List GraphEdge
  sinks : List String
deriving Repr

/-- `node_map` lookup: `HashMap::insert` in declaration order makes the
LAST declared node with a given name win. -/
def nodeIndex (names : List String) (s : String) : Option Nat :=
  ((List.range names.length).reverse).find? (fun i => names.getD i "" == s)

/-- Resolve the edge list of a spec to index pairs, failing on an
endpoint that names no declared node (`context("edge from unknown
node")` / `context("edge to unknown node")`). -/
def resolveEdges (names : List String) : List GraphEdge → Except Err (List (Nat × Nat))
  | [] => .ok []
  | e :: rest =>
    match nodeIndex names e.fromName with
    | none => .error (.edgeFromUnknown e.fromName)
    | some a =>
      match nodeIndex names e.toName with
      | none => .error (.edgeToUnknown e.toName)
      | some b =>
        match resolveEdges names rest with
        | .error err => .error err
        | .ok es => .ok ((a, b) :: es)

/-- Sources of the edges into `nx`, in reverse edge-insertion order
(`petgraph` iterates a node's incoming edges most-recent first). -/
def predsOf (edges : List (Nat × Nat)) (nx : Nat) : List Nat :=
  ((edges.filter (fun e => e.2 == nx)).map (fun e => e.1)).reverse

/-- Targets of the edges out of `nx`, in reverse edge-insertion order. -/
def succsOf (edges : List (Nat × Nat)) (nx : Nat) : List Nat :=
  ((edges.filter (fun e => e.1 == nx)).map (fun e => e.2)).reverse

/-- `j` has no incoming edge. -/
def noIncoming (edges : List (Nat × Nat)) (j : Nat) : Bool :=
  edges.all (fun e => e.2 ≠ j)

/-- Every source of an edge into `j` has been visited. -/
def allPredsVisited (edges : List (Nat × Nat)) (visited : List Nat) (j : Nat) : Bool :=
  (edges.filter (fun e => e.2 == j)).all (fun e => visited.contains e.1)

/-- Fueled worker for `petgraph::visit::Topo`: pop the stack, skip
visited entries, visit, push every successor all of whose predecessors
are visited.  `petgraph` pushes onto a `Vec` and pops from its end, so
successors are consed in reverse iteration order. -/
def topoAux (edges : List (Nat × Nat)) : Nat → List Nat → List Nat → List Nat
  | 0, _, _ => []
  | _ + 1, [], _ => []
  | fuel + 1, nx :: stack, visited =>
    if visited.contains nx then topoAux edges fuel stack visited
    else
      let visited1 := nx :: visited
      let pushes := (succsOf edges nx).filter (allPredsVisited edges visited1)
      nx :: topoAux edges fuel (pushes.reverse ++ stack) visited1

/-- The order in which `Topo` yields the nodes `0, …, n-1` of the graph.
The initial stack holds the nodes with no incoming edge; nodes on or
downstream of a directed cycle are never yielded (`Topo` simply stops
producing them — the source has no cycle check). -/
def topoOrder (n : Nat) (edges : List (Nat × Nat)) : List Nat :=
  let initial := ((List.range n).filter (fun i => noIncoming edges i)).reverse
  topoAux edges (n + n * edges.length + 1) initial []

/-- Result of `run_transform_with_io`: on success the output state hash
and the trace packet; state, counter and logged operations either way. -/
structure RunRes where
  result : Except Err (String × TracePacket)
  fs : Fs
  gen : Nat
  ops : List FsOp

/-- `Kernel::run_transform_with_io`: load the input state, materialize
it at `tmp/input-<uuid>.json`, reserve `tmp/output-<uuid>.json`, spawn
the exec command on the two paths, and on exit status 0 persist the
output document.  A non-zero exit returns `Ok` with output hash `""` and
a failure trace; temp files are removed only on the fully successful
path (the source's cleanup is after the early failure return). -/
def runTransformWithIo (env : Env) (fs : Fs) (gen : Nat)
    (transform : TransformSpec) (inputHash : String) (executionId : String) : RunRes :=
  match loadState fs inputHash with
  | .error e => ⟨.error e, fs, gen, []⟩
  | .ok inputVal =>
    let inputFile := "tmp/input-" ++ env.uuid gen ++ ".json"
    let outputFile := "tmp/output-" ++ env.uuid (gen + 1) ++ ".json"
    let fs1 : Fs := { fs with tmp := fs.tmp ++ [inputFile] }
    let ops1 : List FsOp := [.writeFile inputFile inputVal]
    if (splitArgv transform.exec_command).isEmpty then
      ⟨.error (.emptyExecCommand transform.id), fs1, gen + 2, ops1⟩
    else
      match env.child transform.exec_command inputVal with
      | .spawnFail => ⟨.error .spawnFailed, fs1, gen + 2, ops1⟩
      | .exited code stderr out =>
        let duration := env.dur (gen + 2)
        let fs2 : Fs :=
          match out with
          | some _ => { fs1 with tmp := fs1.tmp ++ [outputFile] }
          | none => fs1
        if code ≠ 0 then
          let trace : TracePacket :=
            { trace_id := env.uuid (gen + 3)
              execution_id := executionId
              transform_id := transform.id
              timestamp := env.time (gen + 4)
              inputs_hash := inputHash
              outputs_hash := ""
              duration_ms := duration
              resource_usage := Json.obj [("exit_code", Json.num code)]
              error := some stderr }
          ⟨.ok ("", trace), fs2, gen + 5, ops1⟩
        else
          match out with
          | none => ⟨.error (.outputMissing outputFile), fs2, gen + 3, ops1⟩
          | some outputVal =>
            let p := persistState env fs2 outputVal
            let trace : TracePacket :=
              { trace_id := env.uuid (gen + 3)
                execution_id := executionId
                transform_id := transform.id
                timestamp := env.time (gen + 4)
                inputs_hash := inputHash
                outputs_hash := p.hash
                duration_ms := duration
                resource_usage := Json.obj [("output_bytes", Json.num (env.bytesLen outputVal))]
                error := none }
            let fs3 : Fs :=
              { p.fs with tmp := (p.fs.tmp.erase inputFile).erase outputFile }
            ⟨.ok (p.hash, trace), fs3, gen + 5,
              ops1 ++ p.ops ++ [.removeFile inputFile, .removeFile outputFile]⟩

/-- Gather and load predecessor outputs for a node; a node with no
predecessor loads the root input instead.  A predecessor absent from
`outputs` fails with `Missing output from predecessor`. -/
def gatherPreds (fs : Fs) (outputs : List (String × String))
    (rootHash : String) : List String → Except Err (List Json)
  | [] =>
    match loadState fs rootHash with
    | .error e => .error e
    | .ok root => .ok [root]
  | preds => gatherLoop fs outputs preds
where
  /-- Load each predecessor's recorded output hash from the store. -/
  gatherLoop (fs : Fs) (outputs : List (String × String)) :
      List String → Except Err (List Json)
  | [] => .ok []
  | p :: rest =>
    match lookupA outputs p with
    | none => .error (.missingPredecessor p)
    | some h =>
      match loadState fs h with
      | .error e => .error e
      | .ok st =>
        match gatherLoop fs outputs rest with
        | .error e => .error e
        | .ok sts => .ok (st :: sts)

/-- Result of the node-firing loop of `execute_graph`. -/
structure LoopRes where
  result : Except Err Unit
  fs : Fs
  gen : Nat
  ops : List FsOp
  outputs : List (String × String)

/-- The `while let Some(nx) = topo.next(&graph)` loop of
`execute_graph`: per node, gather predecessor outputs, persist the
merged input array, resolve the node spec by `find`-first on the name,
load its transform, fire it, append the trace, and record the returned
output hash (also the empty hash of a failed firing) in `outputs`. -/
def execNodes (env : Env) (spec : GraphSpec) (names : List String)
    (edges : List (Nat × Nat)) (executionId rootHash : String) :
    List Nat → Fs → Nat → List (String × String) → LoopRes
  | [], fs, gen, outputs => ⟨.ok (), fs, gen, [], outputs⟩
  | nx :: rest, fs, gen, outputs =>
    let nodeName := names.getD nx ""
    let preds := (predsOf edges nx).map (fun i => names.getD i "")
    match gatherPreds fs outputs rootHash preds with
    | .error e => ⟨.error e, fs, gen, [], outputs⟩
    | .ok merged =>
      let p := persistState env fs (Json.arr merged)
      match spec.nodes.find? (fun n => n.name == nodeName) with
      | none => ⟨.error (.nodeSpecMissing nodeName), p.fs, gen, p.ops, outputs⟩
      | some nodeSpec =>
        match loadTransform p.fs nodeSpec.transform_id with
        | .error e => ⟨.error e, p.fs, gen, p.ops, outputs⟩
        | .ok transform =>
          let r := runTransformWithIo env p.fs gen transform p.hash executionId
          match r.result with
          | .error e => ⟨.error e, r.fs, r.gen, p.ops ++ r.ops, outputs⟩
          | .ok (outputHash, trace) =>
            let fs2 : Fs := { r.fs with traces := r.fs.traces ++ [trace] }
            let outputs2 := insertA outputs nodeName outputHash
            let rec1 := execNodes env spec names edges executionId rootHash rest fs2 r.gen outputs2
            ⟨rec1.result, rec1.fs, rec1.gen,
              p.ops ++ r.ops ++ [.appendTrace trace] ++ rec1.ops, rec1.outputs⟩

/-- Body of the `final_outputs` loop: record the sink if `outputs`
holds an entry for it. -/
def collectStep (outputs : List (String × String))
    (acc : List (String × String)) (s : String) : List (String × String) :=
  match lookupA outputs s with
  | some h => insertA acc s h
  | none => acc

/-- `final_outputs`: keep exactly the sinks present in `outputs`. -/
def collectFinal (sinks : List String) (outputs : List (String × String)) :
    List (String × String) :=
  sinks.foldl (collectStep outputs) []

/-- Result of `execute_graph`: the summary hash (or error), final
filesystem, counter and logged operations. -/
structure ExecRes where
  result : Except Err String
  fs : Fs
  gen : Nat
  ops : List FsOp

/-- `Kernel::execute_graph`: build the graph (one node per declared
node, `node_map` last-wins), resolve edges, draw one execution id, fire
the nodes in `Topo` order, then persist and return the execution
summary `{execution_id, final_outputs, timestamp}`. -/
def executeGraph (env : Env) (fs : Fs) (spec : GraphSpec)
    (inputStateHash : String) (gen : Nat) : ExecRes :=
  let names := spec.nodes.map (fun n => n.name)
  match resolveEdges names spec.edges with
  | .error e => ⟨.error e, fs, gen, []⟩
  | .ok edges =>
    let order := topoOrder names.length edges
    let executionId := env.uuid gen
    let r := execNodes env spec names edges executionId inputStateHash order fs (gen + 1) []
    match r.result with
    | .error e => ⟨.error e, r.fs, r.gen, r.ops⟩
    | .ok _ =>
      let finalOutputs := collectFinal spec.sinks r.outputs
      let summary := Json.obj
        [("execution_id", Json.str executionId),
         ("final_outputs", Json.obj (finalOutputs.map (fun p => (p.1, Json.str p.2)))),
         ("timestamp", Json.str (env.time r.gen))]
      let p := persistState env r.fs summary
      ⟨.ok p.hash, p.fs, r.gen + 1, r.ops ++ p.ops⟩

/-! ### Field access and operation counting helpers -/

/-- Field lookup in a JSON object. -/
def Json.getField : Json → String → Option Json
  | .obj fields, k => lookupA fields k
  | _, _ => none

/-- Number of file writes among logged operations. -/
def writeCount (ops : List FsOp) : Nat := (ops.filter FsOp.isWrite).length

/-- Number of entries stored under a given file name. -/
def keyCount (l : List (String × Json)) (k : String) : Nat :=
  (l.filter (fun p => p.1 == k)).length

/-- Result of repeated persistence of one value. -/
structure PersistNRes where
  fs : Fs
  ops : List FsOp
  hashes : List String

/-- Call `persist_state` on the same value `n` times in sequence,
collecting all file operations and all returned hashes. -/
def persistN (env : Env) (v : Json) : Nat → Fs → PersistNRes
  | 0, fs => ⟨fs, [], []⟩
  | n + 1, fs =>
    let p := persistState env fs v
    let r := persistN env v n p.fs
    ⟨r.fs, p.ops ++ r.ops, p.hash :: r.hashes⟩

/-! ### Concrete model environments and scenarios -/

/-- A child process that always succeeds, echoing its command and input. -/
def childEcho : String → Json → ChildRes :=
  fun cmd v => .exited 0 "" (some (Json.arr [Json.str cmd, v]))

/-- A child that fails (exit 1, nothing written) for command `ca` and
behaves like `childEcho` otherwise. -/
def childFailA : String → Json → ChildRes :=
  fun cmd v => if cmd == "ca" then .exited 1 "boom" none else childEcho cmd v

/-- A child whose spawn always fails (`Command::output()` errors). -/
def childSpawnFail : String → Json → ChildRes := fun _ _ => .spawnFail

/-- Concrete stand-in hash for the scenario documents: a non-recursive
pattern match assigning short distinct names to the finitely many
documents the concrete runs produce (summaries are keyed by their
execution id).  Non-recursive so that closed runs reduce definitionally. -/
def mockHash : Json → String
  | .num 5 => "r"
  | .arr [.num 5] => "m0"
  | .arr [.str "ca", .arr [.num 5]] => "oa"
  | .arr [.str "cb", .arr [.num 5]] => "ob"
  | .arr [.str "c1", .arr [.num 5]] => "o1"
  | .arr [.str "cp", .arr [.num 5]] => "op"
  | .arr [.arr [.str "cp", .arr [.num 5]]] => "mp"
  | .arr [.str "c1", .arr [.arr [.str "cp", .arr [.num 5]]]] => "o2"
  | .obj (("execution_id", .str e) :: _) => "S" ++ e
  | _ => "X"

/-- Concrete model environment built around a given child behaviour:
`mockHash` hashing, numbered UUID and clock draws. -/
def envOf (child : String → Json → ChildRes) : Env :=
  { hashOf := mockHash
    uuid := fun k => "u" ++ toString k
    time := fun k => "t" ++ toString k
    dur := fun _ => 7
    bytesLen := fun _ => 9
    child := child }

/-- Root input document of the concrete scenarios. -/
def rootV : Json := Json.num 5

/-- Registry with transforms `tA` (command `ca`) and `tB` (command `cb`). -/
def regAB : List (String × TransformSpec) :=
  [("tA", ⟨"tA", "ca", Json.null⟩), ("tB", ⟨"tB", "cb", Json.null⟩)]

/-- Store holding the persisted root input plus the `regAB` registry. -/
def fsAB : Fs :=
  { states := [("r.json", rootV)], registry := regAB, traces := [], tmp := [] }

/-- Empty store. -/
def fsE : Fs := { states := [], registry := [], traces := [], tmp := [] }

/-- Cyclic graph: ordinary node `A`, self-loop on `B`. -/
def specCycle : GraphSpec :=
  ⟨[⟨"A", "tA"⟩, ⟨"B", "tB"⟩], [⟨"B", "B"⟩], ["A", "B"]⟩

/-- Two-node chain `A → B` with `B` as sink. -/
def specChain : GraphSpec :=
  ⟨[⟨"A", "tA"⟩, ⟨"B", "tB"⟩], [⟨"A", "B"⟩], ["B"]⟩

/-- Single node `A`, also the only sink. -/
def specSingle : GraphSpec := ⟨[⟨"A", "tA"⟩], [], ["A"]⟩

/-- Empty graph. -/
def specEmpty : GraphSpec := ⟨[], [], []⟩

/-- Registry for the duplicate-name scenario. -/
def regDup : List (String × TransformSpec) :=
  [("t1", ⟨"t1", "c1", Json.null⟩), ("t2", ⟨"t2", "c2", Json.null⟩),
   ("tP", ⟨"tP", "cp", Json.null⟩)]

/-- Store for the duplicate-name scenario. -/
def fsDup : Fs :=
  { states := [("r.json", rootV)], registry := regDup, traces := [], tmp := [] }

/-- Graph declaring the name `dup` twice with different transforms. -/
def specDup : GraphSpec :=
  ⟨[⟨"P", "tP"⟩, ⟨"dup", "t1"⟩, ⟨"dup", "t2"⟩], [⟨"P", "dup"⟩], ["dup"]⟩

/-! ### Association list lemmas -/

theorem lookupA_append_self {α : Type} {l : List (String × α)} {k : String} {v : α}
    (h : lookupA l k = none) : lookupA (l ++ [(k, v)]) k = some v := by
  induction l with
  | nil => simp [lookupA]
  | cons p rest ih =>
    obtain ⟨k1, v1⟩ := p
    simp only [lookupA] at h
    simp only [List.cons_append, lookupA]
    by_cases hk : k1 == k
    · rw [if_pos hk] at h; cases h
    · rw [if_neg hk] at h
      rw [if_neg hk]
      exact ih h

theorem lookupA_mem {α : Type} {l : List (String × α)} {k : String} {v : α}
    (h : lookupA l k = some v) : (k, v) ∈ l := by
  induction l with
  | nil => simp [lookupA] at h
  | cons p rest ih =>
    obtain ⟨k1, v1⟩ := p
    simp only [lookupA] at h
    by_cases hk : k1 == k
    · rw [if_pos hk] at h
      cases h
      have hkk : k1 = k := eq_of_beq hk
      subst hkk
      exact List.mem_cons_self _ _
    · rw [if_neg hk] at h
      exact List.mem_cons_of_mem _ (ih h)

theorem keyCount_eq_zero {l : List (String × Json)} {k : String}
    (h : lookupA l k = none) : keyCount l k = 0 := by
  induction l with
  | nil => rfl
  | cons p rest ih =>
    obtain ⟨k1, v1⟩ := p
    simp only [lookupA] at h
    by_cases hk : k1 == k
    · rw [if_pos hk] at h; cases h
    · rw [if_neg hk] at h
      have hb : (k1 == k) = false := Bool.not_eq_true _ ▸ Bool.of_not_eq_true hk
      simp only [keyCount, List.filter_cons, hb]
      exact ih h

theorem keyCount_append {l : List (String × Json)} {k : String} {v : Json} :
    keyCount (l ++ [(k, v)]) k = keyCount l k + 1 := by
  simp [keyCount, List.filter_append]

theorem string_append_cancel_right {a b t : String} (h : a ++ t = b ++ t) : a = b := by
  have hd := congrArg String.data h
  simp only [String.data_append] at hd
  exact String.ext (List.append_cancel_right hd)

/-! ### State store lemmas -/

theorem persistState_present {env : Env} {fs : Fs} {v : Json}
    (h : (lookupA fs.states (env.hashOf v ++ ".json")).isSome) :
    persistState env fs v = ⟨env.hashOf v, fs, []⟩ := by
  simp only [persistState, h, if_true]

theorem persistState_absent {env : Env} {fs : Fs} {v : Json}
    (h : lookupA fs.states (env.hashOf v ++ ".json") = none) :
    persistState env fs v =
      ⟨env.hashOf v, { fs with states := fs.states ++ [(env.hashOf v ++ ".json", v)] },
        [.writeFile ("states/" ++ (env.hashOf v ++ ".json")) v]⟩ := by
  simp only [persistState, h, Option.isSome_none, Bool.false_eq_true, if_false]

theorem persistN_present {env : Env} {v : Json} (n : Nat) (fs : Fs)
    (h : (lookupA fs.states (env.hashOf v ++ ".json")).isSome) :
    persistN env v n fs = ⟨fs, [], List.replicate n (env.hashOf v)⟩ := by
  induction n with
  | zero => rfl
  | succ m ih =>
    simp only [persistN, persistState_present h, ih, List.replicate_succ,
      List.nil_append]

theorem persistN_absent_succ {env : Env} {fs : Fs} {v : Json} (m : Nat)
    (habsent : lookupA fs.states (env.hashOf v ++ ".json") = none) :
    persistN env v (m + 1) fs =
      ⟨{ fs with states := fs.states ++ [(env.hashOf v ++ ".json", v)] },
        [.writeFile ("states/" ++ (env.hashOf v ++ ".json")) v],
        List.replicate (m + 1) (env.hashOf v)⟩ := by
  have hpresent :
      (lookupA (fs.states ++ [(env.hashOf v ++ ".json", v)]) (env.hashOf v ++ ".json")).isSome := by
    rw [lookupA_append_self habsent]; rfl
  simp only [persistN, persistState_absent habsent]
  rw [persistN_present m _ hpresent]
  simp [List.replicate_succ]

/-- Claim C5: persisting the same value `n ≥ 1` times from a store that
does not yet hold it returns the hash of the value on every call,
performs exactly one file write in total, and leaves exactly one file
for that hash under `states/`; moreover any call that finds the file
already present returns the hash without performing any file
operation. -/
theorem c5_persist_idempotent (env : Env) (fs : Fs) (v : Json) (n : Nat)
    (hn : 1 ≤ n)
    (habsent : lookupA fs.states (env.hashOf v ++ ".json") = none) :
    (∀ h ∈ (persistN env v n fs).hashes, h = env.hashOf v) ∧
    writeCount (persistN env v n fs).ops = 1 ∧
    keyCount (persistN env v n fs).fs.states (env.hashOf v ++ ".json") = 1 ∧
    (∀ fs2 : Fs, (lookupA fs2.states (env.hashOf v ++ ".json")).isSome →
      persistState env fs2 v = ⟨env.hashOf v, fs2, []⟩) := by
  obtain ⟨m, rfl⟩ : ∃ m, n = m + 1 := ⟨n - 1, by omega⟩
  rw [persistN_absent_succ m habsent]
  refine ⟨?_, ?_, ?_, fun fs2 h2 => persistState_present h2⟩
  · intro h hmem
    rcases List.mem_cons.mp hmem with h1 | h1
    · exact h1
    · exact List.eq_of_mem_replicate h1
  · rfl
  · simp only [keyCount_append, keyCount_eq_zero habsent]

/-- Witness for C5 at `v = 7`, `n = 3`, empty store. -/
theorem c5_persist_idempotent_witness :
    (1 ≤ 3 ∧ lookupA fsE.states ((envOf childEcho).hashOf (Json.num 7) ++ ".json") = none) ∧
    ((∀ h ∈ (persistN (envOf childEcho) (Json.num 7) 3 fsE).hashes,
        h = (envOf childEcho).hashOf (Json.num 7)) ∧
      writeCount (persistN (envOf childEcho) (Json.num 7) 3 fsE).ops = 1 ∧
      keyCount (persistN (envOf childEcho) (Json.num 7) 3 fsE).fs.states
        ((envOf childEcho).hashOf (Json.num 7) ++ ".json") = 1 ∧
      (∀ fs2 : Fs,
        (lookupA fs2.states ((envOf childEcho).hashOf (Json.num 7) ++ ".json")).isSome →
        persistState (envOf childEcho) fs2 (Json.num 7) =
          ⟨(envOf childEcho).hashOf (Json.num 7), fs2, []⟩)) :=
  ⟨⟨by omega, rfl⟩,
    c5_persist_idempotent (envOf childEcho) fsE (Json.num 7) 3 (by omega) rfl⟩

/-- Claim C6: loading the hash returned by `persist_state(v)` yields a
document canonically equal to `v`, for any store whose files are named
by the hash of their contents, provided the hash is collision-free at
`v` (the standard SHA-256 assumption). -/
theorem c6_roundtrip (env : Env) (fs : Fs) (v : Json)
    (hwf : ∀ p ∈ fs.states, p.1 = env.hashOf p.2 ++ ".json")
    (hinj : ∀ w : Json, env.hashOf w = env.hashOf v → w = v) :
    loadState (persistState env fs v).fs (persistState env fs v).hash = .ok v := by
  rcases hc : lookupA fs.states (env.hashOf v ++ ".json") with _ | w
  · rw [persistState_absent hc]
    simp only [loadState]
    rw [lookupA_append_self hc]
  · have hsome : (lookupA fs.states (env.hashOf v ++ ".json")).isSome := by
      rw [hc]; rfl
    rw [persistState_present hsome]
    simp only [loadState, hc]
    have hmem := lookupA_mem hc
    have h1 := hwf _ hmem
    have h2 : env.hashOf w = env.hashOf v :=
      string_append_cancel_right h1.symm
    rw [hinj w h2]

/-- Environment whose model hash distinguishes `null` from everything
else; collision-free at `null`. -/
def envInjNull : Env :=
  { hashOf := fun w => match w with | .null => "z" | _ => "nz"
    uuid := fun k => "u" ++ toString k
    time := fun k => "t" ++ toString k
    dur := fun _ => 7
    bytesLen := fun _ => 9
    child := childEcho }

/-- Witness for C6 at `v = null` over the empty store. -/
theorem c6_roundtrip_witness :
    ((∀ p ∈ fsE.states, p.1 = envInjNull.hashOf p.2 ++ ".json") ∧
      (∀ w : Json, envInjNull.hashOf w = envInjNull.hashOf Json.null → w = Json.null)) ∧
    loadState (persistState envInjNull fsE Json.null).fs
      (persistState envInjNull fsE Json.null).hash = .ok Json.null := by
  have hwf : ∀ p ∈ fsE.states, p.1 = envInjNull.hashOf p.2 ++ ".json" := by
    intro p hp
    simp [fsE] at hp
  have hinj : ∀ w : Json, envInjNull.hashOf w = envInjNull.hashOf Json.null →
      w = Json.null := by
    intro w hw
    cases w with
    | null => rfl
    | bool b => simp [envInjNull] at hw
    | num n => simp [envInjNull] at hw
    | str s => simp [envInjNull] at hw
    | arr elems => simp [envInjNull] at hw
    | obj fields => simp [envInjNull] at hw
  exact ⟨⟨hwf, hinj⟩, c6_roundtrip envInjNull fsE Json.null hwf hinj⟩

/-- Claim C7 counterexample: persisting `7` into the empty store performs
one direct write to `states/7.json`; no temporary file is written and no
rename is performed, contradicting the claimed temp-file-then-rename
sequence. -/
theorem c7_counterexample :
    (persistState (envOf childEcho) fsE (Json.num 7)).ops
        = [FsOp.writeFile "states/X.json" (Json.num 7)] ∧
    ((persistState (envOf childEcho) fsE (Json.num 7)).ops.all
        (fun op => !op.isRename)) = true :=
  ⟨rfl, rfl⟩

/-- Claim C7 amended: when `persist_state` writes a new state file it
does so with a single direct write to the final path
`states/<hash>.json` (and performs no operation at all when the file
exists); it never renames, so the write is not atomic in the
temp-file-plus-rename sense. -/
theorem c7_amended (env : Env) (fs : Fs) (v : Json) :
    ((persistState env fs v).ops = [] ∨
      (persistState env fs v).ops
        = [FsOp.writeFile ("states/" ++ (env.hashOf v ++ ".json")) v]) ∧
    ((persistState env fs v).ops.all (fun op => !op.isRename)) = true := by
  rcases hc : lookupA fs.states (env.hashOf v ++ ".json") with _ | w
  · rw [persistState_absent hc]
    exact ⟨Or.inr rfl, rfl⟩
  · have hsome : (lookupA fs.states (env.hashOf v ++ ".json")).isSome := by
      rw [hc]; rfl
    rw [persistState_present hsome]
    exact ⟨Or.inl rfl, rfl⟩

/-- The `final_outputs` object of the summary persisted by a run, read
back from the run's own store. -/
def summaryFinalOutputs (r : ExecRes) : Option Json :=
  match r.result with
  | .error _ => none
  | .ok h =>
    match loadState r.fs h with
    | .error _ => none
    | .ok s => s.getField "final_outputs"

/-- Claim C1 counterexample: the graph `specCycle` contains a directed
cycle (a self-loop on `B`), yet `execute_graph` does not fail with any
cycle error: it returns a summary hash successfully and has fired the
transform of `A`, appending one trace. -/
theorem c1_counterexample :
    (executeGraph (envOf childEcho) fsAB specCycle "r" 0).result
        = .ok "Su0" ∧
    (executeGraph (envOf childEcho) fsAB specCycle "r" 0).fs.traces.length = 1 :=
  ⟨rfl, rfl⟩

/-- Claim C2 counterexample: in the chain `A → B` where `A`'s child
exits non-zero, the run aborts with `stateNotFound ""` — not
`missingPredecessor` — because the failed firing recorded the empty
output hash `""` for `A` in the `outputs` map, and `B` then tried to
load state `""`.  The single appended trace is `A`'s failure trace with
`outputs_hash = ""`. -/
theorem c2_counterexample :
    (executeGraph (envOf childFailA) fsAB specChain "r" 0).result
        = .error (.stateNotFound "") ∧
    (executeGraph (envOf childFailA) fsAB specChain "r" 0).fs.traces.map
        (fun t => t.outputs_hash) = [""] :=
  ⟨rfl, rfl⟩

/-- Claim C3 counterexample: the single sink `A` fails (child exits
non-zero), yet the summary's `final_outputs` is not empty: it contains
the entry `A ↦ ""` rather than silently omitting the failed sink. -/
theorem c3_counterexample :
    summaryFinalOutputs (executeGraph (envOf childFailA) fsAB specSingle "r" 0)
        = some (Json.obj [("A", Json.str "")]) :=
  rfl

/-- Claim C4 counterexample: two runs of the same (empty) graph over the
same input with the same transforms and store produce different summary
hashes, because the summary embeds the per-run `execution_id` and a
timestamp. -/
theorem c4_counterexample :
    (executeGraph (envOf childEcho) fsAB specEmpty "r" 0).result
        = .ok "Su0" ∧
    (executeGraph (envOf childEcho) fsAB specEmpty "r"
        (executeGraph (envOf childEcho) fsAB specEmpty "r" 0).gen).result
        = .ok "Su2" ∧
    ("Su0" : String) ≠ "Su2" :=
  ⟨rfl, rfl, by decide⟩

/-- Claim C8 counterexample: an attempted firing whose child fails to
spawn aborts the run with `spawnFailed` and appends no trace at all,
contradicting one-trace-per-attempted-firing. -/
theorem c8_counterexample :
    (executeGraph (envOf childSpawnFail) fsAB specSingle "r" 0).result
        = .error .spawnFailed ∧
    (executeGraph (envOf childSpawnFail) fsAB specSingle "r" 0).fs.traces = [] :=
  ⟨rfl, rfl⟩

/-- Claim C9 counterexample: after a firing whose child exits non-zero,
the temporary input file is still present under `tmp/` when
`execute_graph` returns (the firing completed and appended its failure
trace), contradicting removal on every exit path. -/
theorem c9_counterexample :
    (executeGraph (envOf childFailA) fsAB specSingle "r" 0).fs.tmp
        = ["tmp/input-u1.json"] ∧
    (executeGraph (envOf childFailA) fsAB specSingle "r" 0).fs.traces.length = 1 :=
  ⟨rfl, rfl⟩

/-! ### Topological-iterator lemmas -/

theorem selfLoop_not_in_topoAux {edges : List (Nat × Nat)} {i : Nat}
    (hloop : (i, i) ∈ edges) :
    ∀ (fuel : Nat) (stack visited : List Nat), i ∉ stack → i ∉ visited →
      i ∉ topoAux edges fuel stack visited := by
  intro fuel
  induction fuel with
  | zero => intro stack visited _ _; simp [topoAux]
  | succ f ih =>
    intro stack visited hs hv
    match stack with
    | [] => simp [topoAux]
    | nx :: rest =>
      have hnx : nx ≠ i := fun h => hs (h ▸ List.mem_cons_self _ _)
      have hrest : i ∉ rest := fun h => hs (List.mem_cons_of_mem _ h)
      simp only [topoAux]
      by_cases hvis : visited.contains nx
      · rw [if_pos hvis]
        exact ih rest visited hrest hv
      · rw [if_neg hvis]
        intro hmem
        rcases List.mem_cons.mp hmem with h | h
        · exact hnx h.symm
        · have hv1 : i ∉ nx :: visited := by
            intro hm
            rcases List.mem_cons.mp hm with h1 | h1
            · exact hnx h1.symm
            · exact hv h1
          have hpush : i ∉ ((succsOf edges nx).filter
              (allPredsVisited edges (nx :: visited))).reverse := by
            intro hm
            have hm2 := List.mem_reverse.mp hm
            have hcond := List.of_mem_filter hm2
            have hin : (i, i) ∈ edges.filter (fun e => e.2 == i) :=
              List.mem_filter.mpr ⟨hloop, by simp⟩
            have hall := List.all_eq_true.mp hcond _ hin
            have : i ∈ nx :: visited := by
              simpa using hall
            exact hv1 this
          have hstack : i ∉ ((succsOf edges nx).filter
              (allPredsVisited edges (nx :: visited))).reverse ++ rest := by
            intro hm
            rcases List.mem_append.mp hm with h1 | h1
            · exact hpush h1
            · exact hrest h1
          exact ih _ _ hstack hv1 h

theorem selfLoop_not_in_topoOrder {n : Nat} {edges : List (Nat × Nat)} {i : Nat}
    (hloop : (i, i) ∈ edges) : i ∉ topoOrder n edges := by
  unfold topoOrder
  apply selfLoop_not_in_topoAux hloop
  · intro hm
    have hm2 := List.mem_reverse.mp hm
    have hcond := List.of_mem_filter hm2
    have hself := List.all_eq_true.mp hcond _ hloop
    simp at hself
  · exact List.not_mem_nil i

/-- Claim C1 amended: a graph containing a directed cycle is not
rejected — the source has no cycle check and no `CycleDetected` error.
A node carrying a self-loop is never yielded by the topological
iterator, so its transform never fires; `execute_graph` fires the
remaining schedulable nodes normally and returns a summary hash, as the
concrete cyclic run shows (it succeeds and fires exactly the acyclic
node `A`). -/
theorem c1_amended :
    (∀ (n : Nat) (edges : List (Nat × Nat)) (i : Nat),
        (i, i) ∈ edges → i ∉ topoOrder n edges) ∧
    (executeGraph (envOf childEcho) fsAB specCycle "r" 0).result = .ok "Su0" ∧
    (executeGraph (envOf childEcho) fsAB specCycle "r" 0).fs.traces.map
      (fun t => t.transform_id) = ["tA"] :=
  ⟨fun _ _ _ h => selfLoop_not_in_topoOrder h, rfl, rfl⟩

/-- Witness for C1 amended at the one-node self-loop graph. -/
theorem c1_amended_witness :
    ((1, 1) ∈ [((1 : Nat), (1 : Nat))]) ∧ (1 : Nat) ∉ topoOrder 2 [(1, 1)] :=
  ⟨by decide, c1_amended.1 2 [(1, 1)] 1 (by decide)⟩

/-! ### Filesystem-preservation lemmas -/

theorem persistState_registry (env : Env) (fs : Fs) (v : Json) :
    (persistState env fs v).fs.registry = fs.registry := by
  simp only [persistState]; split <;> rfl

theorem persistState_traces (env : Env) (fs : Fs) (v : Json) :
    (persistState env fs v).fs.traces = fs.traces := by
  simp only [persistState]; split <;> rfl

theorem persistState_tmp (env : Env) (fs : Fs) (v : Json) :
    (persistState env fs v).fs.tmp = fs.tmp := by
  simp only [persistState]; split <;> rfl

/-- Claim C9 amended: the temporary input and output files are removed
only on the fully successful exit path of the firing routine; when the
child exits non-zero the early return skips the cleanup and the
temporary input file is left behind under `tmp/`. -/
theorem c9_amended (env : Env) (fs : Fs) (gen : Nat) (t : TransformSpec)
    (ih eid : String) (inputVal : Json) (code : Int) (stderr : String)
    (out : Option Json)
    (hload : loadState fs ih = .ok inputVal)
    (hargv : (splitArgv t.exec_command).isEmpty = false)
    (hchild : env.child t.exec_command inputVal = .exited code stderr out)
    (hinfresh : ("tmp/input-" ++ env.uuid gen ++ ".json") ∉ fs.tmp)
    (houtfresh : ("tmp/output-" ++ env.uuid (gen + 1) ++ ".json") ∉ fs.tmp) :
    (∀ outVal, code = 0 → out = some outVal →
      (runTransformWithIo env fs gen t ih eid).fs.tmp = fs.tmp) ∧
    (code ≠ 0 →
      ("tmp/input-" ++ env.uuid gen ++ ".json")
        ∈ (runTransformWithIo env fs gen t ih eid).fs.tmp) := by
  constructor
  · intro outVal hcode hout
    subst hcode
    subst hout
    simp only [runTransformWithIo, hload, hargv, hchild, Bool.false_eq_true,
      if_false, ne_eq, not_true_eq_false, reduceIte]
    rw [persistState_tmp]
    rw [List.append_assoc, List.erase_append_right _ hinfresh,
      List.singleton_append, List.erase_cons_head,
      List.erase_append_right _ houtfresh, List.erase_cons_head, List.append_nil]
  · intro hcode
    simp only [runTransformWithIo, hload, hargv, hchild, Bool.false_eq_true,
      if_false, ne_eq, hcode, not_false_eq_true, if_true]
    cases out <;> simp

/-- Claim C2 amended: when a node's child exits non-zero the firing
routine returns `Ok` with the empty output hash `""` and a failure
trace, which `execute_graph` records in the `outputs` map; a downstream
node that finds the entry then fails loading state `""` with a
state-not-found error — not `missingPredecessor` — aborting the run, as
the concrete `A → B` chain shows. -/
theorem c2_amended (env : Env) (fs : Fs) (gen : Nat) (t : TransformSpec)
    (ih eid : String) (inputVal : Json) (code : Int) (stderr : String)
    (out : Option Json)
    (hload : loadState fs ih = .ok inputVal)
    (hargv : (splitArgv t.exec_command).isEmpty = false)
    (hchild : env.child t.exec_command inputVal = .exited code stderr out)
    (hcode : code ≠ 0) :
    (∃ tr : TracePacket,
      (runTransformWithIo env fs gen t ih eid).result = .ok ("", tr) ∧
      tr.outputs_hash = "" ∧ tr.error = some stderr) ∧
    (∀ fs2 : Fs, lookupA fs2.states ".json" = none →
      loadState fs2 "" = .error (.stateNotFound "")) ∧
    (executeGraph (envOf childFailA) fsAB specChain "r" 0).result
      = .error (.stateNotFound "") := by
  refine ⟨?_, ?_, rfl⟩
  · simp only [runTransformWithIo, hload, hargv, Bool.false_eq_true, if_false,
      hchild, hcode, ne_eq, not_false_eq_true, if_true]
    exact ⟨_, rfl, rfl, rfl⟩
  · intro fs2 h2
    unfold loadState
    rw [show ("" ++ ".json" : String) = ".json" from rfl, h2]

/-- Witness for C2 amended: the failing transform `tA` over the root
input. -/
theorem c2_amended_witness :
    (loadState fsAB "r" = .ok rootV ∧
      (splitArgv "ca").isEmpty = false ∧
      (envOf childFailA).child "ca" rootV = .exited 1 "boom" none ∧
      (1 : Int) ≠ 0) ∧
    (executeGraph (envOf childFailA) fsAB specChain "r" 0).result
      = .error (.stateNotFound "") :=
  ⟨⟨rfl, rfl, rfl, by decide⟩,
    (c2_amended (envOf childFailA) fsAB 0 ⟨"tA", "ca", Json.null⟩ "r" "e"
      rootV 1 "boom" none rfl rfl rfl (by decide)).2.2⟩

/-! ### insertA and collectFinal lemmas -/

theorem lookupA_map_replace {α : Type} {l : List (String × α)} {k : String} {v : α}
    (h : (lookupA l k).isSome) :
    lookupA (l.map (fun p => if p.1 == k then (k, v) else p)) k = some v := by
  induction l with
  | nil => simp [lookupA] at h
  | cons p rest ih =>
    obtain ⟨k1, v1⟩ := p
    simp only [lookupA] at h
    simp only [List.map_cons]
    by_cases hk : (k1 == k) = true
    · rw [if_pos hk]
      simp [lookupA]
    · rw [if_neg hk] at h ⊢
      simp only [lookupA]
      rw [if_neg hk]
      exact ih h

theorem lookupA_insertA_self {α : Type} (l : List (String × α)) (k : String) (v : α) :
    lookupA (insertA l k v) k = some v := by
  unfold insertA
  by_cases h : (lookupA l k).isSome
  · rw [if_pos h]
    exact lookupA_map_replace h
  · rw [if_neg h]
    exact lookupA_append_self (Option.not_isSome_iff_eq_none.mp h)

theorem lookupA_append_ne {α : Type} {l : List (String × α)} {k k2 : String} {v : α}
    (hne : k2 ≠ k) : lookupA (l ++ [(k, v)]) k2 = lookupA l k2 := by
  induction l with
  | nil =>
    simp only [List.nil_append, lookupA]
    rw [if_neg (fun hb => hne (eq_of_beq hb).symm)]
  | cons p rest ih =>
    obtain ⟨k1, v1⟩ := p
    simp only [List.cons_append, lookupA]
    by_cases hk : (k1 == k2) = true
    · rw [if_pos hk, if_pos hk]
    · rw [if_neg hk, if_neg hk]
      exact ih

theorem lookupA_insertA_ne {α : Type} {l : List (String × α)} {k k2 : String} {v : α}
    (hne : k2 ≠ k) : lookupA (insertA l k v) k2 = lookupA l k2 := by
  unfold insertA
  by_cases h : (lookupA l k).isSome
  · rw [if_pos h]
    clear h
    induction l with
    | nil => rfl
    | cons p rest ih =>
      obtain ⟨k1, v1⟩ := p
      simp only [List.map_cons]
      by_cases hk : (k1 == k) = true
      · rw [if_pos hk]
        simp only [lookupA]
        rw [if_neg (fun hb => hne (eq_of_beq hb).symm)]
        rw [if_neg (fun hb =>
          hne (((eq_of_beq hk).symm.trans (eq_of_beq hb)).symm))]
        exact ih
      · rw [if_neg hk]
        simp only [lookupA]
        by_cases hk2 : (k1 == k2) = true
        · rw [if_pos hk2, if_pos hk2]
        · rw [if_neg hk2, if_neg hk2]
          exact ih
  · rw [if_neg h]
    exact lookupA_append_ne hne

theorem collectFold_ne (outputs : List (String × String)) :
    ∀ (sinks : List String) (acc : List (String × String)) (s : String),
      s ∉ sinks →
      lookupA (sinks.foldl (collectStep outputs) acc) s = lookupA acc s := by
  intro sinks
  induction sinks with
  | nil => intro acc s _; rfl
  | cons s0 rest ih =>
    intro acc s hs
    have hne : s ≠ s0 := fun h => hs (h ▸ List.mem_cons_self _ _)
    have hrest : s ∉ rest := fun h => hs (List.mem_cons_of_mem _ h)
    simp only [List.foldl_cons]
    rw [ih _ s hrest]
    unfold collectStep
    cases ho : lookupA outputs s0 with
    | none => rfl
    | some h0 => exact lookupA_insertA_ne hne

theorem collectFold_sound (outputs : List (String × String)) :
    ∀ (sinks : List String) (acc : List (String × String)) (s h : String),
      (∀ h2, lookupA acc s = some h2 → lookupA outputs s = some h2) →
      lookupA (sinks.foldl (collectStep outputs) acc) s = some h →
      lookupA outputs s = some h := by
  intro sinks
  induction sinks with
  | nil => intro acc s h hinv hl; exact hinv h hl
  | cons s0 rest ih =>
    intro acc s h hinv hl
    simp only [List.foldl_cons] at hl
    refine ih _ s h ?_ hl
    intro h2 hacc
    by_cases hs : s = s0
    · subst hs
      unfold collectStep at hacc
      cases ho : lookupA outputs s with
      | none =>
        rw [ho] at hacc
        have hres := hinv h2 hacc
        rw [ho] at hres
        exact hres
      | some h0 =>
        rw [ho] at hacc
        rw [lookupA_insertA_self] at hacc
        exact hacc
    · unfold collectStep at hacc
      cases ho : lookupA outputs s0 with
      | none =>
        rw [ho] at hacc
        exact hinv h2 hacc
      | some h0 =>
        rw [ho] at hacc
        rw [lookupA_insertA_ne hs] at hacc
        exact hinv h2 hacc

theorem collectFold_complete (outputs : List (String × String)) :
    ∀ (sinks : List String) (acc : List (String × String)) (s h : String),
      s ∈ sinks → lookupA outputs s = some h →
      lookupA (sinks.foldl (collectStep outputs) acc) s = some h := by
  intro sinks
  induction sinks with
  | nil => intro acc s h hs _; cases hs
  | cons s0 rest ih =>
    intro acc s h hs ho
    simp only [List.foldl_cons]
    by_cases hr : s ∈ rest
    · exact ih _ s h hr ho
    · rcases List.mem_cons.mp hs with h1 | h1
      · subst h1
        rw [collectFold_ne outputs rest _ s hr]
        unfold collectStep
        rw [ho]
        exact lookupA_insertA_self _ _ _
      · exact absurd h1 hr

/-- Claim C3 amended: for a sink name `s`, the summary's `final_outputs`
map has an entry for `s` (with hash `h`) exactly when the executor's
`outputs` map recorded `s ↦ h` — and a failed firing does record its
sink, with the empty hash `""`, so a failed sink appears in
`final_outputs` as `s ↦ ""` rather than being omitted; only sinks that
never fired are omitted. -/
theorem c3_amended :
    (∀ (sinks : List String) (outputs : List (String × String)) (s h : String),
      s ∈ sinks →
      (lookupA (collectFinal sinks outputs) s = some h ↔
        lookupA outputs s = some h)) ∧
    summaryFinalOutputs (executeGraph (envOf childFailA) fsAB specSingle "r" 0)
      = some (Json.obj [("A", Json.str "")]) := by
  refine ⟨?_, rfl⟩
  intro sinks outputs s h hs
  constructor
  · intro hl
    refine collectFold_sound outputs sinks [] s h ?_ hl
    intro h2 hacc
    cases hacc
  · intro ho
    exact collectFold_complete outputs sinks [] s h hs ho

/-- Witness for C3 amended: the failed sink `A` recorded with hash `""`. -/
theorem c3_amended_witness :
    (("A" : String) ∈ ["A"]) ∧
    (lookupA (collectFinal ["A"] [("A", "")]) "A" = some "" ↔
      lookupA [("A", "")] "A" = some "") :=
  ⟨by decide, c3_amended.1 ["A"] [("A", "")] "A" "" (by decide)⟩

/-! ### Firing-routine lemmas for trace and counter bookkeeping -/

theorem runTransform_traces (env : Env) (fs : Fs) (gen : Nat)
    (t : TransformSpec) (ih eid : String) :
    (runTransformWithIo env fs gen t ih eid).fs.traces = fs.traces := by
  unfold runTransformWithIo
  repeat' split
  all_goals simp [persistState_traces]

theorem runTransform_registry (env : Env) (fs : Fs) (gen : Nat)
    (t : TransformSpec) (ih eid : String) :
    (runTransformWithIo env fs gen t ih eid).fs.registry = fs.registry := by
  unfold runTransformWithIo
  repeat' split
  all_goals simp [persistState_registry]

theorem runTransform_gen_ge (env : Env) (fs : Fs) (gen : Nat)
    (t : TransformSpec) (ih eid : String) :
    gen ≤ (runTransformWithIo env fs gen t ih eid).gen := by
  unfold runTransformWithIo
  repeat' split
  all_goals first
    | exact Nat.le.refl
    | exact Nat.le_add_right _ _

theorem runTransform_result_exec_id {env : Env} {fs : Fs} {gen : Nat}
    {t : TransformSpec} {ih eid : String} {h : String} {tr : TracePacket}
    (hres : (runTransformWithIo env fs gen t ih eid).result = .ok (h, tr)) :
    tr.execution_id = eid := by
  unfold runTransformWithIo at hres
  repeat' split at hres
  all_goals simp at hres
  all_goals rw [← hres.2]

theorem execNodes_gen_ge (env : Env) (spec : GraphSpec) (names : List String)
    (edges : List (Nat × Nat)) (eid root : String) :
    ∀ (order : List Nat) (fs : Fs) (gen : Nat) (outs : List (String × String)),
      gen ≤ (execNodes env spec names edges eid root order fs gen outs).gen := by
  intro order
  induction order with
  | nil => intro fs gen outs; exact Nat.le.refl
  | cons nx rest ih =>
    intro fs gen outs
    simp only [execNodes]
    split
    · exact Nat.le.refl
    · split
      · exact Nat.le.refl
      · split
        · exact Nat.le.refl
        · split
          · exact runTransform_gen_ge env _ gen _ _ eid
          · exact le_trans (runTransform_gen_ge env _ gen _ _ eid) (ih _ _ _)

theorem execNodes_traces_exec_id (env : Env) (spec : GraphSpec)
    (names : List String) (edges : List (Nat × Nat)) (eid root : String) :
    ∀ (order : List Nat) (fs : Fs) (gen : Nat) (outs : List (String × String))
      (t : TracePacket),
      t ∈ (execNodes env spec names edges eid root order fs gen outs).fs.traces →
      t ∈ fs.traces ∨ t.execution_id = eid := by
  intro order
  induction order with
  | nil => intro fs gen outs t ht; exact Or.inl ht
  | cons nx rest ih =>
    intro fs gen outs t ht
    simp only [execNodes] at ht
    split at ht
    · exact Or.inl ht
    · split at ht
      · rw [persistState_traces] at ht
        exact Or.inl ht
      · split at ht
        · rw [persistState_traces] at ht
          exact Or.inl ht
        · split at ht
          · rw [runTransform_traces, persistState_traces] at ht
            exact Or.inl ht
          · rename_i merged hmerged nodeSpec hfound transform htrans pr hres
            rcases ih _ _ _ t ht with h1 | h1
            · rcases List.mem_append.mp h1 with h2 | h2
              · rw [runTransform_traces, persistState_traces] at h2
                exact Or.inl h2
              · have htr := List.mem_singleton.mp h2
                subst htr
                exact Or.inr (runTransform_result_exec_id hres)
            · exact Or.inr h1

/-- In a firing whose child was spawned and exited — non-zero, or zero
having written a parseable output document — the firing routine returns
`Ok` carrying exactly one trace packet (and appends nothing to the log
itself: the single append per firing is `execute_graph`'s `emit_trace`
of that packet). -/
theorem runTransform_spawned_fires (env : Env) (fs : Fs) (gen : Nat)
    (t : TransformSpec) (ih eid : String) (inputVal : Json) (code : Int)
    (stderr : String) (out : Option Json)
    (hload : loadState fs ih = .ok inputVal)
    (hargv : (splitArgv t.exec_command).isEmpty = false)
    (hchild : env.child t.exec_command inputVal = .exited code stderr out)
    (hcase : code ≠ 0 ∨ ∃ v, out = some v) :
    ∃ h tr, (runTransformWithIo env fs gen t ih eid).result = .ok (h, tr) := by
  simp only [runTransformWithIo, hload, hargv, Bool.false_eq_true, if_false,
    hchild]
  by_cases hcode : code ≠ 0
  · rw [if_pos hcode]
    cases out <;> exact ⟨_, _, rfl⟩
  · rcases hcase with hc | ⟨v, hv⟩
    · exact absurd hc hcode
    · subst hv
      rw [if_neg hcode]
      exact ⟨_, _, rfl⟩

/-- A node-firing loop that runs to completion appends exactly one
trace per node of its order list. -/
theorem execNodes_ok_trace_count (env : Env) (spec : GraphSpec)
    (names : List String) (edges : List (Nat × Nat)) (eid root : String) :
    ∀ (order : List Nat) (fs : Fs) (gen : Nat) (outs : List (String × String))
      (u : Unit),
      (execNodes env spec names edges eid root order fs gen outs).result = .ok u →
      (execNodes env spec names edges eid root order fs gen outs).fs.traces.length
        = fs.traces.length + order.length := by
  intro order
  induction order with
  | nil => intro fs gen outs u hres; rfl
  | cons nx rest ih =>
    intro fs gen outs u hres
    simp only [execNodes] at hres ⊢
    split at hres
    · simp at hres
    · split at hres
      · simp at hres
      · split at hres
        · simp at hres
        · split at hres
          · simp at hres
          · rename_i merged hmerged nodeSpec hfound transform htrans pr hrun
            rw [ih _ _ _ u hres]
            dsimp only
            rw [List.length_append, runTransform_traces, persistState_traces]
            simp [Nat.add_assoc, Nat.add_comm]
            omega

/-- Claim C8 amended: (1) a firing whose child was spawned and exited —
non-zero, or zero with a readable output document — produces exactly
one trace packet, returned via `Ok`, the routine itself appending
nothing; (2) a run of `execute_graph` that completes appends exactly
one trace per node yielded by the topological order; (3) every trace
appended by an invocation carries that invocation's execution id; and
(4) on a successful run the UUID counter has strictly advanced past the
execution-id draw, so a subsequent invocation obtains a distinct
execution id whenever the UUID generator is injective.  (A spawn
failure instead aborts the run with no trace for that firing — see the
counterexample.) -/
theorem c8_amended (env : Env) (fs : Fs) (spec : GraphSpec) (root : String)
    (gen : Nat) :
    (∀ (fsx : Fs) (g : Nat) (t : TransformSpec) (ih eid : String)
        (inputVal : Json) (code : Int) (stderr : String) (out : Option Json),
      loadState fsx ih = .ok inputVal →
      (splitArgv t.exec_command).isEmpty = false →
      env.child t.exec_command inputVal = .exited code stderr out →
      (code ≠ 0 ∨ ∃ v, out = some v) →
      (∃ h tr, (runTransformWithIo env fsx g t ih eid).result = .ok (h, tr)) ∧
        (runTransformWithIo env fsx g t ih eid).fs.traces = fsx.traces) ∧
    (∀ (edges : List (Nat × Nat)) (s : String),
      resolveEdges (spec.nodes.map (fun n => n.name)) spec.edges = .ok edges →
      (executeGraph env fs spec root gen).result = .ok s →
      (executeGraph env fs spec root gen).fs.traces.length
        = fs.traces.length
          + (topoOrder (spec.nodes.map (fun n => n.name)).length edges).length) ∧
    (∀ t ∈ (executeGraph env fs spec root gen).fs.traces,
      t ∈ fs.traces ∨ t.execution_id = env.uuid gen) ∧
    (∀ s, (executeGraph env fs spec root gen).result = .ok s →
      Function.Injective env.uuid →
      env.uuid ((executeGraph env fs spec root gen).gen) ≠ env.uuid gen) := by
  refine ⟨?_, ?_, ?_, ?_⟩
  · intro fsx g t ih eid inputVal code stderr out hload hargv hchild hcase
    exact ⟨runTransform_spawned_fires env fsx g t ih eid inputVal code stderr
      out hload hargv hchild hcase, runTransform_traces env fsx g t ih eid⟩
  · intro edges s hE hok
    simp only [executeGraph, hE] at hok ⊢
    cases hR : (execNodes env spec (List.map (fun n => n.name) spec.nodes)
        edges (env.uuid gen) root
        (topoOrder (List.map (fun n => n.name) spec.nodes).length edges)
        fs (gen + 1) []).result with
    | error e =>
      rw [hR] at hok
      simp at hok
    | ok u =>
      simp only [hR] at hok ⊢
      rw [persistState_traces]
      exact execNodes_ok_trace_count env spec
        (List.map (fun n => n.name) spec.nodes) edges (env.uuid gen) root
        (topoOrder (List.map (fun n => n.name) spec.nodes).length edges)
        fs (gen + 1) [] u hR
  · intro t ht
    simp only [executeGraph] at ht
    split at ht
    · exact Or.inl ht
    · split at ht
      · exact execNodes_traces_exec_id env spec _ _ (env.uuid gen) root _ _ _ _ t ht
      · rw [persistState_traces] at ht
        exact execNodes_traces_exec_id env spec _ _ (env.uuid gen) root _ _ _ _ t ht
  · intro s hok hinj
    simp only [executeGraph] at hok ⊢
    split at hok
    · simp at hok
    · rename_i edges hE
      split at hok
      · simp at hok
      · intro heq
        have heq2 : (execNodes env spec (List.map (fun n => n.name) spec.nodes)
            edges (env.uuid gen) root
            (topoOrder (List.map (fun n => n.name) spec.nodes).length edges)
            fs (gen + 1) []).gen + 1 = gen := hinj heq
        have hg := execNodes_gen_ge env spec (List.map (fun n => n.name) spec.nodes)
          edges (env.uuid gen) root
          (topoOrder (List.map (fun n => n.name) spec.nodes).length edges)
          fs (gen + 1) []
        omega

/-- Witness for C8 amended: the completed single-node run appends
exactly one trace — one per yielded node. -/
theorem c8_amended_witness :
    (resolveEdges (specSingle.nodes.map (fun n => n.name)) specSingle.edges
        = .ok [] ∧
      (executeGraph (envOf childEcho) fsAB specSingle "r" 0).result
        = .ok "Su0") ∧
    (executeGraph (envOf childEcho) fsAB specSingle "r" 0).fs.traces.length
      = fsAB.traces.length
        + (topoOrder (specSingle.nodes.map (fun n => n.name)).length []).length :=
  ⟨⟨rfl, rfl⟩,
    (c8_amended (envOf childEcho) fsAB specSingle "r" 0).2.1 [] "Su0" rfl rfl⟩

/-- Witness for C9 amended: the successful identity-style firing removes
its temp files. -/
theorem c9_amended_witness :
    (loadState fsAB "r" = .ok rootV ∧
      (splitArgv "ca").isEmpty = false ∧
      (envOf childEcho).child "ca" rootV
        = .exited 0 "" (some (Json.arr [Json.str "ca", rootV])) ∧
      ("tmp/input-" ++ (envOf childEcho).uuid 0 ++ ".json") ∉ fsAB.tmp ∧
      ("tmp/output-" ++ (envOf childEcho).uuid 1 ++ ".json") ∉ fsAB.tmp) ∧
    (runTransformWithIo (envOf childEcho) fsAB 0 ⟨"tA", "ca", Json.null⟩
      "r" "e").fs.tmp = fsAB.tmp := by
  have h := c9_amended (envOf childEcho) fsAB 0 ⟨"tA", "ca", Json.null⟩ "r" "e"
    rootV 0 "" (some (Json.arr [Json.str "ca", rootV])) rfl rfl rfl
    (List.not_mem_nil _) (List.not_mem_nil _)
  exact ⟨⟨rfl, rfl, rfl, List.not_mem_nil _, List.not_mem_nil _⟩,
    h.1 (Json.arr [Json.str "ca", rootV]) rfl rfl⟩

/-- `List.find?` returns the first match: a node that is the first
occurrence of its name in the declaration list is what name-resolution
yields, regardless of later duplicates. -/
theorem find_first_occurrence (nodes : List GraphNode) :
    ∀ (i : Nat) (ni : GraphNode), nodes.get? i = some ni →
      (∀ k, k < i → ∀ nk : GraphNode, nodes.get? k = some nk → nk.name ≠ ni.name) →
      nodes.find? (fun n => n.name == ni.name) = some ni := by
  induction nodes with
  | nil => intro i ni h _; simp at h
  | cons p rest ih =>
    intro i ni hget hfirst
    cases i with
    | zero =>
      simp only [List.get?] at hget
      injection hget with hp
      subst hp
      simp [List.find?]
    | succ j =>
      simp only [List.get?] at hget
      have hne : p.name ≠ ni.name := hfirst 0 (Nat.succ_pos j) p rfl
      rw [List.find?]
      rw [show (p.name == ni.name) = false from beq_eq_false_iff_ne.mpr hne]
      exact ih j ni hget
        (fun k hk nk hg => hfirst (k + 1) (Nat.succ_lt_succ hk) nk hg)

/-- Claim C10: duplicate node names are not rejected.  Name resolution
by `nodes.iter().find` always yields the first declared node with the
name, so every occurrence fires the first occurrence's transform; the
`outputs` insert overwrites, so a later firing's hash replaces an
earlier one's under the shared name.  The concrete duplicate-name run
confirms end to end: three traces fire with transform ids
`[t1, tP, t1]` (the second `dup` declaration's `t2` is never used) and
`final_outputs[dup]` holds the later firing's output hash. -/
theorem c10_duplicate_names :
    (∀ (nodes : List GraphNode) (i : Nat) (ni : GraphNode),
      nodes.get? i = some ni →
      (∀ k, k < i → ∀ nk : GraphNode, nodes.get? k = some nk → nk.name ≠ ni.name) →
      nodes.find? (fun n => n.name == ni.name) = some ni) ∧
    (∀ (outs : List (String × String)) (s h1 h2 : String),
      lookupA (insertA (insertA outs s h1) s h2) s = some h2) ∧
    (executeGraph (envOf childEcho) fsDup specDup "r" 0).fs.traces.map
        (fun t => t.transform_id) = ["t1", "tP", "t1"] ∧
    summaryFinalOutputs (executeGraph (envOf childEcho) fsDup specDup "r" 0)
      = some (Json.obj [("dup", Json.str "o2")]) :=
  ⟨find_first_occurrence,
    fun outs s _ h2 => lookupA_insertA_self (insertA outs s _) s h2,
    rfl, rfl⟩

/-- Witness for C10: in `specDup` the second `dup` declaration resolves
to the first one's transform. -/
theorem c10_duplicate_names_witness :
    specDup.nodes.get? 1 = some (⟨"dup", "t1"⟩ : GraphNode) ∧
    specDup.nodes.find? (fun n => n.name == "dup")
      = some (⟨"dup", "t1"⟩ : GraphNode) := by
  refine ⟨rfl, c10_duplicate_names.1 specDup.nodes 1 ⟨"dup", "t1"⟩ rfl ?_⟩
  intro k hk nk hget
  have hk0 : k = 0 := by omega
  subst hk0
  have h0 : specDup.nodes.get? 0 = some (⟨"P", "tP"⟩ : GraphNode) := rfl
  rw [h0] at hget
  injection hget with h1
  rw [← h1]
  decide

/-! ### Counter-independence of execution (claim C4) -/

/-- Two run results agree: equal summary hashes on success, or both
failures. -/
def sameOutcome : Except Err String → Except Err String → Prop
  | .ok a, .ok b => a = b
  | .error _, .error _ => True
  | _, _ => False

/-- Firing results agree: equal output hashes on success, or both
failures. -/
def okHashEq : Except Err (String × TracePacket) →
    Except Err (String × TracePacket) → Prop
  | .ok (h1, _), .ok (h2, _) => h1 = h2
  | .error _, .error _ => True
  | _, _ => False

theorem persistState_hash (env : Env) (fs : Fs) (v : Json) :
    (persistState env fs v).hash = env.hashOf v := by
  simp only [persistState]
  split <;> rfl

theorem loadState_states_eq {fs1 fs2 : Fs} (h : fs1.states = fs2.states)
    (hash : String) : loadState fs1 hash = loadState fs2 hash := by
  unfold loadState
  rw [h]

theorem loadTransform_registry_eq {fs1 fs2 : Fs}
    (h : fs1.registry = fs2.registry) (id : String) :
    loadTransform fs1 id = loadTransform fs2 id := by
  unfold loadTransform
  rw [h]

theorem persistState_states_congr {env : Env} {fs1 fs2 : Fs}
    (h : fs1.states = fs2.states) (v : Json) :
    (persistState env fs1 v).hash = (persistState env fs2 v).hash ∧
    (persistState env fs1 v).fs.states = (persistState env fs2 v).fs.states := by
  refine ⟨by rw [persistState_hash, persistState_hash], ?_⟩
  simp only [persistState]
  rw [h]
  split
  · exact h
  · rfl

theorem gatherLoop_states_eq {fs1 fs2 : Fs} (h : fs1.states = fs2.states)
    (outs : List (String × String)) :
    ∀ ps : List String,
      gatherPreds.gatherLoop fs1 outs ps = gatherPreds.gatherLoop fs2 outs ps := by
  intro ps
  induction ps with
  | nil => rfl
  | cons p rest ih =>
    simp only [gatherPreds.gatherLoop]
    cases hl : lookupA outs p with
    | none => rfl
    | some hh =>
      dsimp only
      rw [loadState_states_eq h hh, ih]

theorem gatherPreds_states_eq {fs1 fs2 : Fs} (h : fs1.states = fs2.states)
    (outs : List (String × String)) (root : String) (ps : List String) :
    gatherPreds fs1 outs root ps = gatherPreds fs2 outs root ps := by
  cases ps with
  | nil =>
    simp only [gatherPreds]
    rw [loadState_states_eq h]
  | cons p rest =>
    simp only [gatherPreds]
    exact gatherLoop_states_eq h outs _

theorem runTransform_congr (env : Env) (t : TransformSpec) (ihash eid : String)
    {fs1 fs2 : Fs} (g1 g2 : Nat) (h : fs1.states = fs2.states) :
    (runTransformWithIo env fs1 g1 t ihash eid).fs.states
      = (runTransformWithIo env fs2 g2 t ihash eid).fs.states ∧
    okHashEq (runTransformWithIo env fs1 g1 t ihash eid).result
      (runTransformWithIo env fs2 g2 t ihash eid).result := by
  have hload := loadState_states_eq h ihash
  simp only [runTransformWithIo, hload]
  cases hl : loadState fs2 ihash with
  | error e => exact ⟨h, trivial⟩
  | ok inputVal =>
    dsimp only
    by_cases hempty : (splitArgv t.exec_command).isEmpty = true
    · rw [if_pos hempty, if_pos hempty]
      exact ⟨h, trivial⟩
    · rw [if_neg hempty, if_neg hempty]
      cases hc : env.child t.exec_command inputVal with
      | spawnFail => exact ⟨h, trivial⟩
      | exited code stderr out =>
        dsimp only
        by_cases hcode : code ≠ 0
        · rw [if_pos hcode, if_pos hcode]
          cases out <;> exact ⟨h, rfl⟩
        · rw [if_neg hcode, if_neg hcode]
          cases out with
          | none => exact ⟨h, trivial⟩
          | some outputVal =>
            dsimp only
            obtain ⟨hh, hs⟩ := @persistState_states_congr env
              { fs1 with tmp := fs1.tmp
                ++ ["tmp/input-" ++ env.uuid g1 ++ ".json"]
                ++ ["tmp/output-" ++ env.uuid (g1 + 1) ++ ".json"] }
              { fs2 with tmp := fs2.tmp
                ++ ["tmp/input-" ++ env.uuid g2 ++ ".json"]
                ++ ["tmp/output-" ++ env.uuid (g2 + 1) ++ ".json"] }
              h outputVal
            exact ⟨hs, hh⟩

/-- Loop results agree up to the counter supply: same stored states,
same registry, same recorded outputs, and success/failure together. -/
def loopAgree : LoopRes → LoopRes → Prop := fun r1 r2 =>
  r1.fs.states = r2.fs.states ∧ r1.fs.registry = r2.fs.registry ∧
  r1.outputs = r2.outputs ∧
  (match r1.result, r2.result with
   | .ok _, .ok _ => True
   | .error _, .error _ => True
   | _, _ => False)

theorem execNodes_congr (env : Env) (spec : GraphSpec) (names : List String)
    (edges : List (Nat × Nat)) (eid root : String) :
    ∀ (order : List Nat) (fs1 fs2 : Fs) (g1 g2 : Nat)
      (outs : List (String × String)),
      fs1.states = fs2.states → fs1.registry = fs2.registry →
      loopAgree (execNodes env spec names edges eid root order fs1 g1 outs)
        (execNodes env spec names edges eid root order fs2 g2 outs) := by
  intro order
  induction order with
  | nil => intro fs1 fs2 g1 g2 outs hs hr; exact ⟨hs, hr, rfl, trivial⟩
  | cons nx rest ih =>
    intro fs1 fs2 g1 g2 outs hs hr
    simp only [execNodes]
    rw [gatherPreds_states_eq hs outs root
      ((predsOf edges nx).map (fun i => names.getD i ""))]
    cases hg : gatherPreds fs2 outs root
        ((predsOf edges nx).map (fun i => names.getD i "")) with
    | error e => exact ⟨hs, hr, rfl, trivial⟩
    | ok merged =>
      dsimp only
      obtain ⟨hh, hps⟩ := @persistState_states_congr env fs1 fs2 hs (Json.arr merged)
      have hpreg : (persistState env fs1 (Json.arr merged)).fs.registry
          = (persistState env fs2 (Json.arr merged)).fs.registry := by
        rw [persistState_registry, persistState_registry]
        exact hr
      cases hf : spec.nodes.find? (fun n => n.name == names.getD nx "") with
      | none => exact ⟨hps, hpreg, rfl, trivial⟩
      | some nodeSpec =>
        dsimp only
        rw [loadTransform_registry_eq hpreg nodeSpec.transform_id]
        cases hl : loadTransform (persistState env fs2 (Json.arr merged)).fs
            nodeSpec.transform_id with
        | error e => exact ⟨hps, hpreg, rfl, trivial⟩
        | ok transform =>
          dsimp only
          rw [hh]
          obtain ⟨hrs, hok⟩ := runTransform_congr env transform
            ((persistState env fs2 (Json.arr merged)).hash) eid g1 g2 hps
          have hrreg : (runTransformWithIo env
              (persistState env fs1 (Json.arr merged)).fs g1 transform
              ((persistState env fs2 (Json.arr merged)).hash) eid).fs.registry
            = (runTransformWithIo env
              (persistState env fs2 (Json.arr merged)).fs g2 transform
              ((persistState env fs2 (Json.arr merged)).hash) eid).fs.registry := by
            rw [runTransform_registry, runTransform_registry]
            exact hpreg
          cases hx1 : (runTransformWithIo env
              (persistState env fs1 (Json.arr merged)).fs g1 transform
              ((persistState env fs2 (Json.arr merged)).hash) eid).result with
          | error e1 =>
            cases hx2 : (runTransformWithIo env
                (persistState env fs2 (Json.arr merged)).fs g2 transform
                ((persistState env fs2 (Json.arr merged)).hash) eid).result with
            | error e2 => exact ⟨hrs, hrreg, rfl, trivial⟩
            | ok pr2 =>
              rw [hx1, hx2] at hok
              exact hok.elim
          | ok pr1 =>
            cases hx2 : (runTransformWithIo env
                (persistState env fs2 (Json.arr merged)).fs g2 transform
                ((persistState env fs2 (Json.arr merged)).hash) eid).result with
            | error e2 =>
              rw [hx1, hx2] at hok
              exact hok.elim
            | ok pr2 =>
              rw [hx1, hx2] at hok
              obtain ⟨oh1, tr1⟩ := pr1
              obtain ⟨oh2, tr2⟩ := pr2
              have hok2 : oh1 = oh2 := hok
              subst hok2
              dsimp only
              refine ih _ _ _ _ _ ?_ ?_
              · exact hrs
              · exact hrreg

/-- Claim C4 amended: the run result is a deterministic function of the
graph, the store, the input hash, the transforms and the UUID/clock
supply; in particular, when the execution-id draw coincides and the
clock is constant, two runs return the same summary hash (or both
fail).  Across real invocations the execution id is fresh, so the
summary — which embeds it and a timestamp — hashes differently (see the
counterexample). -/
theorem c4_amended (env : Env) (fs : Fs) (spec : GraphSpec) (root : String)
    (g1 g2 : Nat)
    (huuid : env.uuid g1 = env.uuid g2)
    (htime : ∀ i j, env.time i = env.time j) :
    sameOutcome (executeGraph env fs spec root g1).result
      (executeGraph env fs spec root g2).result := by
  simp only [executeGraph]
  cases hE : resolveEdges (List.map (fun n => n.name) spec.nodes) spec.edges with
  | error e => exact trivial
  | ok edges =>
    dsimp only
    rw [huuid]
    obtain ⟨hs, hr, ho, hres⟩ := execNodes_congr env spec
      (List.map (fun n => n.name) spec.nodes) edges (env.uuid g2) root
      (topoOrder (List.map (fun n => n.name) spec.nodes).length edges)
      fs fs (g1 + 1) (g2 + 1) [] rfl rfl
    cases h1 : (execNodes env spec (List.map (fun n => n.name) spec.nodes)
        edges (env.uuid g2) root
        (topoOrder (List.map (fun n => n.name) spec.nodes).length edges)
        fs (g1 + 1) []).result with
    | error e1 =>
      cases h2 : (execNodes env spec (List.map (fun n => n.name) spec.nodes)
          edges (env.uuid g2) root
          (topoOrder (List.map (fun n => n.name) spec.nodes).length edges)
          fs (g2 + 1) []).result with
      | error e2 => exact trivial
      | ok u2 =>
        rw [h1, h2] at hres
        exact hres.elim
    | ok u1 =>
      cases h2 : (execNodes env spec (List.map (fun n => n.name) spec.nodes)
          edges (env.uuid g2) root
          (topoOrder (List.map (fun n => n.name) spec.nodes).length edges)
          fs (g2 + 1) []).result with
      | error e2 =>
        rw [h1, h2] at hres
        exact hres.elim
      | ok u2 =>
        dsimp only
        rw [persistState_hash, persistState_hash, ho,
          htime ((execNodes env spec (List.map (fun n => n.name) spec.nodes)
              edges (env.uuid g2) root
              (topoOrder (List.map (fun n => n.name) spec.nodes).length edges)
              fs (g1 + 1) []).gen)
            ((execNodes env spec (List.map (fun n => n.name) spec.nodes)
              edges (env.uuid g2) root
              (topoOrder (List.map (fun n => n.name) spec.nodes).length edges)
              fs (g2 + 1) []).gen)]
        exact rfl

/-- Environment whose UUID and clock supplies are constant, realizing
the coincidence hypotheses of the amended C4 claim. -/
def envConst : Env :=
  { hashOf := mockHash
    uuid := fun _ => "u"
    time := fun _ => "t"
    dur := fun _ => 7
    bytesLen := fun _ => 9
    child := childEcho }

/-- Witness for C4 amended: two runs of the empty graph from different
counter positions under a constant supply agree. -/
theorem c4_amended_witness :
    (envConst.uuid 0 = envConst.uuid 5 ∧ ∀ i j, envConst.time i = envConst.time j) ∧
    sameOutcome (executeGraph envConst fsAB specEmpty "r" 0).result
      (executeGraph envConst fsAB specEmpty "r" 5).result :=
  ⟨⟨rfl, fun _ _ => rfl⟩,
    c4_amended envConst fsAB specEmpty "r" 0 5 rfl (fun _ _ => rfl)⟩
